import Mathlib

/-!
Shallow embedding of the tabular preprocessing pipeline in
`src/backend/preprocess.py` (pandas / scikit-learn), together with proofs
about the claims of the specification.

Modelling conventions:
* A pandas `DataFrame` is a `DF α`: a list of row labels (the pandas index)
  and a list of named columns.  A column is either numeric (`float64`, or
  nullable `Int64` after the integer-restoration step, distinguished by a
  Boolean flag) or categorical (`object` dtype, holding strings).
* Machine floats are idealised as exact arithmetic in a linear ordered
  field `α` (instantiated with `ℚ` for the stages that never take a square
  root and with `ℝ` for the standardizer and for whole-pipeline runs).
  `numpy.sqrt` is passed to the standardizer as an explicit function
  parameter and instantiated with `Real.sqrt`.
* `NaN` (the missing sentinel) is `Option.none`; pandas statistics skip
  missing cells (`mean`, `quantile`, `mode` all drop NaN), and a comparison
  against a missing cell is false (`np.where` keeps the original NaN).
* A Python exception aborting the pipeline is `Option.none` at the stage
  level; `preprocess_data` chains the stages with `Option.bind`.
-/

set_option maxRecDepth 4000

namespace DataPrep

/-- Round half to even, the rounding used both by `numpy.float64.round`
(in `df[col].mean().round()`) and by Python's built-in `round`
(in `round(df[col].median())`). -/
def rnd {α : Type} [LinearOrderedField α] [FloorRing α] (x : α) : ℤ :=
  if x - (⌊x⌋ : α) < 1/2 then ⌊x⌋
  else if (1:α)/2 < x - (⌊x⌋ : α) then ⌊x⌋ + 1
  else if ⌊x⌋ % 2 = 0 then ⌊x⌋ else ⌊x⌋ + 1

/-- Arithmetic mean of a list of values (`Series.mean` over the
non-missing values; junk value `0` on the empty list, which callers guard). -/
def mean {α : Type} [LinearOrderedField α] (xs : List α) : α :=
  xs.sum / (xs.length : α)

/-- Population variance (divisor `n`, as used by `StandardScaler`). -/
def popVar {α : Type} [LinearOrderedField α] (xs : List α) : α :=
  ((xs.map fun x => (x - mean xs) ^ 2).sum) / (xs.length : α)

/-- Linear-interpolation quantile over the non-missing values, the default
`Series.quantile(q)` estimator: sort, take position `q * (n - 1)` and
interpolate linearly between the neighbouring order statistics. -/
def quantileLinear {α : Type} [LinearOrderedField α] (xs : List α) (q : ℚ) : α :=
  let s := List.insertionSort (· ≤ ·) xs
  let pos : ℚ := q * ((s.length : ℚ) - 1)
  let i : ℕ := (⌊pos⌋).toNat
  let g : ℚ := pos - (⌊pos⌋ : ℚ)
  s.getD i 0 + (g : α) * (s.getD (i + 1) (s.getD i 0) - s.getD i 0)

/-- The value `Series.mode()[0]`: among the non-missing values of maximal
multiplicity, the smallest in the `numpy.sort` order (pandas sorts the
modes); `none` when the list is empty (then `mode()[0]` raises `KeyError`). -/
def mode0 (xs : List String) : Option String :=
  let d := xs.dedup
  let m := (d.map fun v => xs.count v).foldr max 0
  (List.insertionSort (· ≤ ·) (d.filter fun v => xs.count v = m)).head?

/-- Cell data of one column: numeric (`float64`, or nullable `Int64` when
the flag is set) or categorical (`object`, strings).  `none` is NaN. -/
inductive ColData (α : Type) where
  | nums (int64 : Bool) (cells : List (Option α))
  | strs (cells : List (Option String))
deriving DecidableEq

/-- A named column. -/
structure Col (α : Type) where
  name : String
  data : ColData α
deriving DecidableEq

/-- A data frame: row labels (the pandas index) plus columns.  Freshly
parsed input has `index = List.range n`. -/
structure DF (α : Type) where
  index : List ℕ
  cols : List (Col α)
deriving DecidableEq

namespace ColData

/-- Number of cells in the column. -/
def length {α : Type} : ColData α → ℕ
  | nums _ cs => cs.length
  | strs cs => cs.length

/-- Is this a numeric column (selected by `select_dtypes(include=np.number)`)? -/
def isNums {α : Type} : ColData α → Bool
  | nums _ _ => true
  | strs _ => false

/-- Is this an `object` column (`df[col].dtype == 'object'`)? -/
def isStrs {α : Type} : ColData α → Bool
  | nums _ _ => false
  | strs _ => true

/-- Is the column tagged with the nullable `Int64` dtype? -/
def isInt64 {α : Type} : ColData α → Bool
  | nums b _ => b
  | strs _ => false

/-- The cell of this column in row position `i`, injected into a common
cell type so that whole rows can be compared (`drop_duplicates`). -/
def rowCell {α : Type} : ColData α → ℕ → Option α ⊕ Option String
  | nums _ cs, i => Sum.inl (cs.getD i none)
  | strs cs, i => Sum.inr (cs.getD i none)

end ColData

/-- Sequencing of fallible per-column operations: the whole loop raises as
soon as one column raises (`Option`-valued `map`). -/
def mapOption {σ τ : Type} (f : σ → Option τ) : List σ → Option (List τ)
  | [] => some []
  | x :: xs =>
    match f x, mapOption f xs with
    | some y, some ys => some (y :: ys)
    | _, _ => none

/-! ### Stage 1: `handle_missing_values` (preprocess.py lines 9-16) -/

/-- Numeric branch: `df[col].fillna(df[col].mean().round())`.  The mean
skips NaN; when every cell is NaN the mean is NaN and `fillna(NaN)` is a
silent no-op (no exception is raised). -/
def fillnaNum {α : Type} [LinearOrderedField α] [FloorRing α]
    (cells : List (Option α)) : List (Option α) :=
  let nm := cells.filterMap id
  if nm = [] then cells
  else cells.map fun c => some (c.getD ((rnd (mean nm) : ℤ) : α))

/-- Categorical branch: `df[col].fillna(df[col].mode()[0])`; raises
(`KeyError`) when the column has no non-missing value. -/
def fillnaStr (cells : List (Option String)) : Option (List (Option String)) :=
  match mode0 (cells.filterMap id) with
  | none => none
  | some m => some (cells.map fun c => some (c.getD m))

/-- Imputation of a single column, dispatching on the dtype
(`df[col].dtype == 'object'`). -/
def Col.impute {α : Type} [LinearOrderedField α] [FloorRing α]
    (c : Col α) : Option (Col α) :=
  match c.data with
  | .strs cs => (fillnaStr cs).map fun cs' => ⟨c.name, .strs cs'⟩
  | .nums b cs => some ⟨c.name, .nums b (fillnaNum cs)⟩

/-- `handle_missing_values`: impute every column in order. -/
def handle_missing_values {α : Type} [LinearOrderedField α] [FloorRing α]
    (df : DF α) : Option (DF α) :=
  (mapOption Col.impute df.cols).map fun cs => ⟨df.index, cs⟩

/-! ### Stage 2: `remove_duplicates` (preprocess.py lines 18-21) -/

/-- Mask of the rows kept by `drop_duplicates`: a row is kept iff it has
not been seen at an earlier position. -/
def keepFirsts {σ : Type} [DecidableEq σ] (seen : List σ) : List σ → List Bool
  | [] => []
  | r :: rs => (if r ∈ seen then false else true) :: keepFirsts (r :: seen) rs

/-- Keep the entries of a list selected by a Boolean mask. -/
def maskFilter {σ : Type} : List Bool → List σ → List σ
  | b :: bs, x :: xs => if b then x :: maskFilter bs xs else maskFilter bs xs
  | _, _ => []

/-- Apply a row mask to the cells of one column. -/
def ColData.mask {α : Type} (m : List Bool) : ColData α → ColData α
  | .nums b cs => .nums b (maskFilter m cs)
  | .strs cs => .strs (maskFilter m cs)

/-- `remove_duplicates`: `df.drop_duplicates(inplace=True)` keeps the first
occurrence of each distinct row and, crucially, keeps the original row
labels of the survivors (the index is NOT reset). -/
def remove_duplicates {α : Type} [DecidableEq α] (df : DF α) : DF α :=
  let rows := (List.range df.index.length).map fun i =>
    df.cols.map fun c => c.data.rowCell i
  let m := keepFirsts [] rows
  ⟨maskFilter m df.index, df.cols.map fun c => ⟨c.name, c.data.mask m⟩⟩

/-! ### Stage 3: `handle_outliers` (preprocess.py lines 23-30) -/

/-- One numeric column of the IQR step: quartiles by linear interpolation
over the non-missing values, bounds `[Q1 - 1.5*IQR, Q3 + 1.5*IQR]`, values
strictly outside replaced by `round(median)`.  When the column has no
non-missing value the median is NaN and `round(NaN)` raises `ValueError`
(`none`).  A NaN cell compares false against both bounds, so `np.where`
keeps it. -/
def outlierCol {α : Type} [LinearOrderedField α] [FloorRing α]
    (cells : List (Option α)) : Option (List (Option α)) :=
  let nm := cells.filterMap id
  if nm = [] then none
  else
    let q1 := quantileLinear nm (1/4)
    let q3 := quantileLinear nm (3/4)
    let iqr := q3 - q1
    let lower := q1 - 3/2 * iqr
    let upper := q3 + 3/2 * iqr
    let med : α := ((rnd (quantileLinear nm (1/2)) : ℤ) : α)
    some (cells.map (Option.map fun x => if x < lower ∨ upper < x then med else x))

/-- The IQR step on a single column (`df.select_dtypes(include=np.number)`
keeps `object` columns untouched). -/
def Col.outlier {α : Type} [LinearOrderedField α] [FloorRing α]
    (c : Col α) : Option (Col α) :=
  match c.data with
  | .nums b cs => (outlierCol cs).map fun cs' => (⟨c.name, .nums b cs'⟩ : Col α)
  | .strs _ => some c

/-- `handle_outliers`: the IQR step on every numeric column. -/
def handle_outliers {α : Type} [LinearOrderedField α] [FloorRing α]
    (df : DF α) : Option (DF α) :=
  (mapOption Col.outlier df.cols).map fun cs => ⟨df.index, cs⟩

/-! ### Stage 4: `scale_numerical_features` (preprocess.py lines 32-37) -/

/-- `StandardScaler` on one numeric column.  NaNs are disregarded when
fitting and maintained by the transform.  The scale is
`numpy.sqrt(var)`, with an exactly-zero scale replaced by `1`
(`_handle_zeros_in_scale`), so a constant column is mapped to zeros,
never an error. -/
def scaleCol {α : Type} [LinearOrderedField α]
    (sqrt : α → α) (cells : List (Option α)) : List (Option α) :=
  let nm := cells.filterMap id
  let μ := mean nm
  let s := sqrt (popVar nm)
  let s' := if s = 0 then 1 else s
  cells.map (Option.map fun x => (x - μ) / s')

/-- `scale_numerical_features`: `check_array` inside
`StandardScaler.fit_transform` demands at least one feature column and at
least one sample row (`ValueError` otherwise); then each numeric column is
standardized. -/
def scale_numerical_features {α : Type} [LinearOrderedField α]
    (sqrt : α → α) (df : DF α) : Option (DF α) :=
  if df.cols.all (fun c => !c.data.isNums) then none
  else if df.index.length = 0 then none
  else some ⟨df.index, df.cols.map fun c =>
    match c.data with
    | .nums b cs => ⟨c.name, .nums b (scaleCol sqrt cs)⟩
    | .strs _ => c⟩

/-! ### Stage 5: `encode_categorical_variables` (preprocess.py lines 39-48) -/

/-- The category vocabulary computed by `OneHotEncoder.fit`: `numpy.unique`
of the column, i.e. the distinct values in ascending sorted order (the
columns reaching the encoder on any successful pipeline run have no NaN). -/
def sortedDistinct (cells : List (Option String)) : List String :=
  List.insertionSort (· ≤ ·) (cells.filterMap id).dedup

/-- Sorted union of two row-label sets, the index produced by
`pd.concat(axis=1)` on the (monotone) indexes involved here. -/
def mergeIdx (a b : List ℕ) : List ℕ :=
  List.insertionSort (· ≤ ·) (a ++ b).dedup

/-- Align a column given with labels `oldIdx` onto the labels `newIdx`;
labels absent from `oldIdx` get NaN (the reindexing done by `pd.concat`). -/
def reindex {α : Type} (oldIdx : List ℕ) (cells : List (Option α))
    (newIdx : List ℕ) : List (Option α) :=
  newIdx.map fun l =>
    match oldIdx.findIdx? (· = l) with
    | some i => cells.getD i none
    | none => none

/-- A surviving (numeric) column of `df.drop(columns=cat_cols)` as it
appears after the outer-join of `pd.concat(axis=1)`: realigned from the
frame's labels onto the joined labels. -/
def survivorCol {α : Type} (oldIdx newIdx : List ℕ) (c : Col α) : Col α :=
  match c.data with
  | .nums b cs => ⟨c.name, .nums b (reindex oldIdx cs newIdx)⟩
  | .strs cs => ⟨c.name, .strs cs⟩

/-- The indicator block `OneHotEncoder(drop='first')` synthesizes for one
categorical column: one `name_value` column per category except the
sorted-first, cells `1` where the original cell equals the category and
`0` otherwise, positioned on the encoded block's `RangeIndex` `encIdx`
and realigned onto the joined labels `newIdx`. -/
def indicatorBlock {α : Type} [LinearOrderedField α] [DecidableEq α]
    (encIdx newIdx : List ℕ) (c : Col α) : List (Col α) :=
  match c.data with
  | .strs cs =>
    ((sortedDistinct cs).tail).map fun v =>
      (⟨c.name ++ "_" ++ v,
        .nums false (reindex encIdx
          (cs.map fun cell => some (if cell = some v then (1:α) else 0))
          newIdx)⟩ : Col α)
  | .nums _ _ => []

/-- `encode_categorical_variables`: with no `object` column the stage
returns the frame unchanged.  Otherwise `OneHotEncoder(drop='first')`
builds, for every categorical column and every category but the sorted
first, an indicator column named `col_value`; the encoded block carries a
fresh `RangeIndex`, the original frame keeps its own labels, and
`pd.concat(axis=1)` outer-joins the two indexes. -/
def encode_categorical_variables {α : Type} [LinearOrderedField α] [DecidableEq α]
    (df : DF α) : Option (DF α) :=
  if df.cols.all (fun c => !c.data.isStrs) then some df
  else if df.index.length = 0 then none
  else
    let n := df.index.length
    let encIdx := List.range n
    let newIdx := mergeIdx df.index encIdx
    let survivors := (df.cols.filter fun c => !c.data.isStrs).map
      (survivorCol df.index newIdx)
    let indicators := (df.cols.filter fun c => c.data.isStrs).map
      (indicatorBlock encIdx newIdx)
    some ⟨newIdx, survivors ++ indicators.flatten⟩

/-! ### Stage 6: integer-type restoration and the orchestrator
(`preprocess_data`, preprocess.py lines 50-63) -/

/-- The `Int64` restoration of one column: a `float` column whose
non-missing values all satisfy `x.is_integer()` (exact check, no
tolerance) is re-tagged `Int64` with its values unchanged. -/
def Col.restoreInt {α : Type} [LinearOrderedField α] [FloorRing α]
    (c : Col α) : Col α :=
  match c.data with
  | .nums false cs =>
    if ∀ x ∈ cs.filterMap id, x = ((⌊x⌋ : ℤ) : α) then ⟨c.name, .nums true cs⟩
    else c
  | _ => c

/-- `preprocess_data`: the fixed stage chain, followed by the `Int64`
restoration loop over the float columns.  A raising stage (`none`) aborts
the whole run. -/
def preprocess_data {α : Type} [LinearOrderedField α] [FloorRing α]
    (sqrt : α → α) (df : DF α) : Option (DF α) :=
  (handle_missing_values df).bind fun df1 =>
  (handle_outliers (remove_duplicates df1)).bind fun df3 =>
  (scale_numerical_features sqrt df3).bind fun df4 =>
  (encode_categorical_variables df4).bind fun df5 =>
  some ⟨df5.index, df5.cols.map Col.restoreInt⟩

/-! ### General lemmas about the embedding -/

theorem mapOption_some_iff {σ τ : Type} (f : σ → Option τ) :
    ∀ (l : List σ) (l' : List τ),
      mapOption f l = some l' ↔ List.Forall₂ (fun a b => f a = some b) l l'
  | [], [] => by simp [mapOption]
  | [], _ :: _ => by simp [mapOption]
  | a :: l, [] => by
    cases hfa : f a <;> cases hml : mapOption f l <;>
      simp [mapOption, hfa, hml]
  | a :: l, b :: l' => by
    cases hfa : f a <;> cases hml : mapOption f l <;>
      simp [mapOption, hfa, hml, List.forall₂_cons,
        ← mapOption_some_iff f l l']

theorem mapOption_eq_none {σ τ : Type} (f : σ → Option τ) {a : σ} :
    ∀ {l : List σ}, a ∈ l → f a = none → mapOption f l = none := by
  intro l
  induction l with
  | nil => intro h; cases h
  | cons x xs ih =>
    intro hmem hfa
    rcases List.mem_cons.mp hmem with h | h
    · subst h; simp [mapOption, hfa]
    · cases hfx : f x <;> simp [mapOption, hfx, ih h hfa]

theorem forall₂_mem_left {σ τ : Type} {R : σ → τ → Prop} {a : σ} :
    ∀ {l : List σ} {l' : List τ}, List.Forall₂ R l l' → a ∈ l →
      ∃ b ∈ l', R a b := by
  intro l l' h
  induction h with
  | nil => intro h; cases h
  | cons hR _ ih =>
    intro hmem
    rcases List.mem_cons.mp hmem with h | h
    · subst h; exact ⟨_, List.mem_cons_self _ _, hR⟩
    · obtain ⟨b, hb, hRb⟩ := ih h
      exact ⟨b, List.mem_cons_of_mem _ hb, hRb⟩

theorem filterMap_id_map_some {σ : Type} (xs : List σ) :
    List.filterMap id (xs.map some) = xs := by
  induction xs with
  | nil => rfl
  | cons x xs ih => simp [List.filterMap_cons, ih]

/-- The rounded value is a nearest integer: it is within `1/2` of `x`. -/
theorem rnd_nearest {α : Type} [LinearOrderedField α] [FloorRing α] (x : α) :
    |((rnd x : ℤ) : α) - x| ≤ 1/2 := by
  have hlo := Int.floor_le x
  have hhi := Int.lt_floor_add_one x
  rw [abs_le, rnd]
  split_ifs with h1 h2 h3 <;> push_cast <;> constructor <;> linarith

/-- Population variance is nonnegative. -/
theorem popVar_nonneg {α : Type} [LinearOrderedField α] (xs : List α) :
    0 ≤ popVar xs := by
  apply div_nonneg _ (by positivity)
  apply List.sum_nonneg
  intro x hx
  obtain ⟨y, _, rfl⟩ := List.mem_map.mp hx
  positivity

theorem sum_eq_zero_of_nonneg {α : Type} [LinearOrderedField α] :
    ∀ {l : List α}, (∀ x ∈ l, 0 ≤ x) → l.sum = 0 → ∀ x ∈ l, x = 0 := by
  intro l
  induction l with
  | nil => intro _ _ x hx; cases hx
  | cons a t ih =>
    intro hpos hsum x hx
    have hta : 0 ≤ t.sum := List.sum_nonneg fun y hy => hpos y (List.mem_cons_of_mem _ hy)
    have ha : 0 ≤ a := hpos a (List.mem_cons_self _ _)
    have hsum' : a + t.sum = 0 := by simpa using hsum
    rcases List.mem_cons.mp hx with h | h
    · subst h; linarith
    · exact ih (fun y hy => hpos y (List.mem_cons_of_mem _ hy)) (by linarith) x h

/-- A column with zero population variance is constant at its mean. -/
theorem popVar_eq_zero {α : Type} [LinearOrderedField α] {xs : List α}
    (h : popVar xs = 0) : ∀ x ∈ xs, x = mean xs := by
  rcases eq_or_ne xs [] with rfl | hne
  · intro x hx; cases hx
  have hn : (xs.length : α) ≠ 0 := by
    simpa using hne
  have hsum : ((xs.map fun x => (x - mean xs) ^ 2).sum) = 0 := by
    rcases div_eq_zero_iff.mp h with h' | h'
    · exact h'
    · exact absurd h' hn
  intro x hx
  have := sum_eq_zero_of_nonneg
    (fun y hy => by obtain ⟨z, _, rfl⟩ := List.mem_map.mp hy; positivity) hsum
    ((x - mean xs) ^ 2) (List.mem_map.mpr ⟨x, hx, rfl⟩)
  have := sq_eq_zero_iff.mp this
  linarith [sub_eq_zero.mp this]

theorem foldr_max_mem : ∀ (l : List ℕ), l ≠ [] → l.foldr max 0 ∈ l := by
  intro l
  induction l with
  | nil => intro h; exact absurd rfl h
  | cons a t ih =>
    intro _
    rcases eq_or_ne t [] with rfl | hne
    · simp
    · rcases max_choice a (t.foldr max 0) with h | h <;> rw [List.foldr_cons, h]
      · exact List.mem_cons_self _ _
      · exact List.mem_cons_of_mem _ (ih hne)

theorem le_foldr_max {x : ℕ} : ∀ {l : List ℕ}, x ∈ l → x ≤ l.foldr max 0 := by
  intro l
  induction l with
  | nil => intro h; cases h
  | cons a t ih =>
    intro hx
    rcases List.mem_cons.mp hx with h | h
    · subst h; exact le_max_left _ _
    · exact le_trans (ih h) (le_max_right _ _)

theorem sorted_head?_min {σ : Type} [LinearOrder σ] {l : List σ} {v : σ}
    (hs : List.Sorted (· ≤ ·) l) (hv : l.head? = some v) : ∀ w ∈ l, v ≤ w := by
  cases l with
  | nil => cases hv
  | cons a t =>
    obtain rfl : a = v := by simpa using hv
    intro w hw
    rcases List.mem_cons.mp hw with h | h
    · exact le_of_eq h.symm
    · exact (List.sorted_cons.mp hs).1 w h

/-- Characterization of `Series.mode()[0]`: a most frequent value, smallest
in sort order among the most frequent ones. -/
theorem mode0_spec {xs : List String} (hne : xs ≠ []) :
    ∃ v, mode0 xs = some v ∧ v ∈ xs ∧
      (∀ w ∈ xs, xs.count w ≤ xs.count v) ∧
      (∀ w ∈ xs, xs.count w = xs.count v → v ≤ w) := by
  classical
  set d := xs.dedup with hd
  set m := (d.map fun v => xs.count v).foldr max 0 with hm
  set best := d.filter fun v => xs.count v = m with hbest
  have hdne : d ≠ [] := fun h => hne ((List.dedup_eq_nil xs).mp h)
  have hmmem : m ∈ d.map fun v => xs.count v :=
    foldr_max_mem _ (by simpa using hdne)
  obtain ⟨u, hu, hum⟩ := List.mem_map.mp hmmem
  have hbestne : best ≠ [] := by
    intro h
    have : u ∈ best := List.mem_filter.mpr ⟨hu, by simp [hum]⟩
    rw [h] at this; cases this
  have hperm := List.perm_insertionSort (· ≤ ·) best
  have hsortne : List.insertionSort (· ≤ ·) best ≠ [] := by
    intro h
    have hpb : best.Perm (List.insertionSort (· ≤ ·) best) := hperm.symm
    rw [h] at hpb
    exact hbestne hpb.eq_nil
  obtain ⟨v, t, hvt⟩ := List.exists_cons_of_ne_nil hsortne
  have hv0 : mode0 xs = some v := by
    rw [mode0]; rw [← hd, ← hm, ← hbest, hvt]; rfl
  have hvmem : v ∈ best := hperm.mem_iff.mp (hvt ▸ List.mem_cons_self _ _)
  have hvd : v ∈ d := (List.mem_filter.mp hvmem).1
  have hvcount : xs.count v = m := by
    have := (List.mem_filter.mp hvmem).2
    simpa using this
  refine ⟨v, hv0, List.mem_dedup.mp hvd, ?_, ?_⟩
  · intro w hw
    rw [hvcount]
    exact le_foldr_max (List.mem_map.mpr ⟨w, List.mem_dedup.mpr hw, rfl⟩)
  · intro w hw hwc
    have hwbest : w ∈ best :=
      List.mem_filter.mpr ⟨List.mem_dedup.mpr hw, by simp [hwc, hvcount]⟩
    have hwsort : w ∈ List.insertionSort (· ≤ ·) best := hperm.mem_iff.mpr hwbest
    exact sorted_head?_min (List.sorted_insertionSort _ _) (by rw [hvt]; rfl) w hwsort

theorem sum_map_sub_mul {α : Type} [LinearOrderedField α] (xs : List α) (m c : α) :
    (xs.map fun x => (x - m) * c).sum = (xs.sum - (xs.length : α) * m) * c := by
  induction xs with
  | nil => simp
  | cons a t ih =>
    simp only [List.map_cons, List.sum_cons, ih, List.length_cons]
    push_cast
    ring

theorem sum_map_sq_sub_mul {α : Type} [LinearOrderedField α] (xs : List α) (m c : α) :
    (xs.map fun x => ((x - m) * c) ^ 2).sum = ((xs.map fun x => (x - m) ^ 2).sum) * c ^ 2 := by
  induction xs with
  | nil => simp
  | cons a t ih =>
    simp only [List.map_cons, List.sum_cons, ih]
    ring

theorem getD_none_or_mem {σ : Type} :
    ∀ (l : List σ) (i : ℕ) (d : σ), l.getD i d = d ∨ l.getD i d ∈ l := by
  intro l
  induction l with
  | nil => intro i d; left; simp
  | cons a t ih =>
    intro i d
    cases i with
    | zero => right; simp
    | succ j =>
      rcases ih j d with h | h
      · left; simpa using h
      · right; simpa using Or.inr h

theorem reindex_cell_mem {α : Type} {oldIdx : List ℕ} {cells : List (Option α)}
    {newIdx : List ℕ} {y : Option α} (hy : y ∈ reindex oldIdx cells newIdx) :
    y = none ∨ y ∈ cells := by
  obtain ⟨l, _, hl⟩ := List.mem_map.mp hy
  rcases hfi : oldIdx.findIdx? (· = l) with _ | i
  · left; rw [← hl]; simp [hfi]
  · rw [← hl]; simp only [hfi]
    exact getD_none_or_mem cells i none

theorem findIdx?_range_self {n i : ℕ} (h : i < n) :
    (List.range n).findIdx? (· = i) = some i := by
  rw [List.findIdx?_eq_some_iff_getElem]
  refine ⟨by simpa using h, by simp, ?_⟩
  intro j hj
  simp only [List.getElem_range]
  simp [Nat.ne_of_lt hj]

theorem map_getD_range {σ : Type} :
    ∀ (cs : List σ) (d : σ), (List.range cs.length).map (fun i => cs.getD i d) = cs := by
  intro cs
  induction cs with
  | nil => intro d; simp
  | cons c t ih =>
    intro d
    rw [List.length_cons, List.range_succ_eq_map, List.map_cons, List.map_map]
    simp only [List.getD_cons_zero]
    congr 1
    rw [show ((fun i => List.getD (c :: t) i d) ∘ fun a => a + 1) = fun i => t.getD i d from by
      funext i; simp, ih d]

/-- Reindexing onto the same clean `RangeIndex` is the identity. -/
theorem reindex_range {α : Type} (cs : List (Option α)) (n : ℕ) (h : cs.length = n) :
    reindex (List.range n) cs (List.range n) = cs := by
  subst h
  rw [reindex]
  have : ∀ l ∈ List.range cs.length,
      (match (List.range cs.length).findIdx? (· = l) with
        | some i => cs.getD i none
        | none => none) = cs.getD l none := by
    intro l hl
    rw [findIdx?_range_self (List.mem_range.mp hl)]
  rw [List.map_congr_left this, map_getD_range]

theorem union_self_of_subset : ∀ (l₁ l₂ : List ℕ), l₁ ⊆ l₂ → l₁ ∪ l₂ = l₂ := by
  intro l₁
  induction l₁ with
  | nil => intro l₂ _; simp [List.nil_union]
  | cons a t ih =>
    intro l₂ h
    rw [List.cons_union, ih l₂ (fun x hx => h (List.mem_cons_of_mem _ hx)),
      List.insert_of_mem (h (List.mem_cons_self _ _))]

/-- Outer-joining a clean `RangeIndex` with itself gives it back. -/
theorem mergeIdx_range (n : ℕ) : mergeIdx (List.range n) (List.range n) = List.range n := by
  rw [mergeIdx, List.dedup_append, (List.nodup_range n).dedup,
    union_self_of_subset _ _ (fun x hx => hx)]
  exact List.eq_of_perm_of_sorted (List.perm_insertionSort _ _)
    (List.sorted_insertionSort _ _) (List.sorted_le_range n)

theorem maskFilter_mem {σ : Type} {x : σ} :
    ∀ {m : List Bool} {l : List σ}, x ∈ maskFilter m l → x ∈ l := by
  intro m
  induction m with
  | nil => intro l h; cases h
  | cons b bs ih =>
    intro l h
    cases l with
    | nil => cases h
    | cons a t =>
      cases b with
      | false => exact List.mem_cons_of_mem _ (ih h)
      | true =>
        rw [maskFilter] at h
        simp only [if_pos rfl] at h
        rcases List.mem_cons.mp h with h | h
        · subst h; exact List.mem_cons_self _ _
        · exact List.mem_cons_of_mem _ (ih h)

/-! ### Support lemmas about the imputer -/

/-- The column has at least one non-missing value. -/
def ColData.hasValue {α : Type} : ColData α → Prop
  | .nums _ cs => cs.filterMap id ≠ []
  | .strs cs => cs.filterMap id ≠ []

/-- No cell of the column holds the missing sentinel. -/
def ColData.filled {α : Type} : ColData α → Prop
  | .nums _ cs => ∀ x ∈ cs, x ≠ none
  | .strs cs => ∀ x ∈ cs, x ≠ none

/-- Every cell of the column holds the missing sentinel (also true of a
column with no rows). -/
def ColData.allMissing {α : Type} : ColData α → Prop
  | .nums _ cs => ∀ x ∈ cs, x = none
  | .strs cs => ∀ x ∈ cs, x = none

theorem mapOption_exists {σ τ : Type} {f : σ → Option τ} {P : τ → Prop} :
    ∀ {l : List σ}, (∀ a ∈ l, ∃ b, f a = some b ∧ P b) →
      ∃ l', mapOption f l = some l' ∧ ∀ b ∈ l', P b := by
  intro l
  induction l with
  | nil => intro _; exact ⟨[], rfl, by simp⟩
  | cons a t ih =>
    intro h
    obtain ⟨b, hfb, hPb⟩ := h a (List.mem_cons_self _ _)
    obtain ⟨l', hml, hPl⟩ := ih fun x hx => h x (List.mem_cons_of_mem _ hx)
    refine ⟨b :: l', ?_, ?_⟩
    · rw [mapOption, hfb, hml]
    · intro y hy
      rcases List.mem_cons.mp hy with h | h
      · subst h; exact hPb
      · exact hPl y h

/-- Inversion of a successful imputer run: every input column is imputed
to the corresponding output column. -/
theorem hmv_inv {α : Type} [LinearOrderedField α] [FloorRing α]
    {df out : DF α} (hout : handle_missing_values df = some out) :
    out.index = df.index ∧
      List.Forall₂ (fun c c' => Col.impute c = some c') df.cols out.cols := by
  rw [handle_missing_values] at hout
  rcases hmo : mapOption (Col.impute : Col α → Option (Col α)) df.cols with _ | cs
  · rw [hmo] at hout; cases hout
  · rw [hmo] at hout
    obtain rfl : (⟨df.index, cs⟩ : DF α) = out := by simpa using hout
    exact ⟨rfl, (mapOption_some_iff _ _ _).mp hmo⟩

theorem hmv_col {α : Type} [LinearOrderedField α] [FloorRing α]
    {df out : DF α} {c : Col α} (hout : handle_missing_values df = some out)
    (hc : c ∈ df.cols) : ∃ c' ∈ out.cols, Col.impute c = some c' :=
  forall₂_mem_left (hmv_inv hout).2 hc

theorem mode0_nil : mode0 [] = none := rfl

theorem impute_strs_all_missing {α : Type} [LinearOrderedField α] [FloorRing α]
    {name : String} {cs : List (Option String)}
    (h : ∀ x ∈ cs, x = none) :
    Col.impute (⟨name, .strs cs⟩ : Col α) = none := by
  have hnm : cs.filterMap id = [] := List.filterMap_eq_nil_iff.mpr h
  simp [Col.impute, fillnaStr, hnm, mode0_nil]

theorem outlierCol_none {α : Type} [LinearOrderedField α] [FloorRing α]
    {cs : List (Option α)} (h : ∀ x ∈ cs, x = none) : outlierCol cs = none := by
  have hnm : cs.filterMap id = [] := List.filterMap_eq_nil_iff.mpr fun a ha => h a ha
  simp [outlierCol, hnm]

theorem handle_outliers_none {α : Type} [LinearOrderedField α] [FloorRing α]
    {df : DF α} {name : String} {b : Bool} {cs : List (Option α)}
    (hmem : (⟨name, .nums b cs⟩ : Col α) ∈ df.cols) (h : ∀ x ∈ cs, x = none) :
    handle_outliers df = none := by
  rw [handle_outliers,
    mapOption_eq_none _ hmem (by simp [Col.outlier, outlierCol_none h])]
  rfl

/-- Inversion of a successful outlier-suppression run. -/
theorem ho_inv {α : Type} [LinearOrderedField α] [FloorRing α]
    {df out : DF α} (hout : handle_outliers df = some out) :
    out.index = df.index ∧
      List.Forall₂ (fun c c' => Col.outlier c = some c') df.cols out.cols := by
  rw [handle_outliers] at hout
  rcases hmo : mapOption (Col.outlier : Col α → Option (Col α)) df.cols with _ | cs
  · rw [hmo] at hout; cases hout
  · rw [hmo] at hout
    obtain rfl : (⟨df.index, cs⟩ : DF α) = out := by simpa using hout
    exact ⟨rfl, (mapOption_some_iff _ _ _).mp hmo⟩

/-! ### Claim C5 -/

/-- Claim C5 (confirmed): for every table in which every column has at
least one non-missing value, the Missing-Value Imputer succeeds and its
output table contains no cell holding the missing sentinel. -/
theorem claim5_imputer_no_missing (df : DF ℚ)
    (h : ∀ c ∈ df.cols, c.data.hasValue) :
    ∃ out, handle_missing_values df = some out ∧ ∀ c ∈ out.cols, c.data.filled := by
  have hcols : ∀ c ∈ df.cols, ∃ c', Col.impute c = some c' ∧ c'.data.filled := by
    intro c hc
    obtain ⟨name, data⟩ := c
    cases data with
    | nums b cs =>
      have hnm : cs.filterMap id ≠ [] := h _ hc
      refine ⟨⟨name, .nums b (cs.map fun c =>
        some (c.getD ((rnd (mean (cs.filterMap id)) : ℤ) : ℚ)))⟩, ?_, ?_⟩
      · simp [Col.impute, fillnaNum, hnm]
      · show ∀ x ∈ _, x ≠ none
        intro x hx
        obtain ⟨y, _, rfl⟩ := List.mem_map.mp hx
        simp
    | strs cs =>
      have hnm : cs.filterMap id ≠ [] := h _ hc
      obtain ⟨v, hv0, _, _, _⟩ := mode0_spec hnm
      refine ⟨⟨name, .strs (cs.map fun c => some (c.getD v))⟩, ?_, ?_⟩
      · simp [Col.impute, fillnaStr, hv0]
      · show ∀ x ∈ _, x ≠ none
        intro x hx
        obtain ⟨y, _, rfl⟩ := List.mem_map.mp hx
        simp
  obtain ⟨cs', hmo, hP⟩ := mapOption_exists hcols
  refine ⟨⟨df.index, cs'⟩, ?_, hP⟩
  rw [handle_missing_values, hmo]
  rfl

/-- A concrete table for the C5 witness: both columns have a value and a
missing cell. -/
def wdf5 : DF ℚ :=
  ⟨[0, 1], [⟨"a", .nums false [some 1, none]⟩, ⟨"s", .strs [none, some "x"]⟩]⟩

/-- Witness for C5 at a concrete table. -/
theorem claim5_witness :
    (∀ c ∈ wdf5.cols, c.data.hasValue) ∧
    ∃ out, handle_missing_values wdf5 = some out ∧ ∀ c ∈ out.cols, c.data.filled :=
  ⟨by simp [wdf5, ColData.hasValue, List.filterMap],
   claim5_imputer_no_missing wdf5 (by simp [wdf5, ColData.hasValue, List.filterMap])⟩

/-! ### Claim C9 -/

/-- Claim C9 (confirmed): for every numeric column with at least one
non-missing value, the imputer fills each missing cell with the rounded
arithmetic mean of the non-missing values — an integer within `1/2` of
that mean, hence a nearest integer — and leaves every non-missing cell
unchanged. -/
theorem claim9_numeric_fill (df out : DF ℚ) (name : String) (b : Bool)
    (cs : List (Option ℚ))
    (hcol : (⟨name, .nums b cs⟩ : Col ℚ) ∈ df.cols)
    (hnm : cs.filterMap id ≠ [])
    (hout : handle_missing_values df = some out) :
    (⟨name, .nums b (cs.map fun c =>
        some (c.getD ((rnd (mean (cs.filterMap id)) : ℤ) : ℚ)))⟩ : Col ℚ) ∈ out.cols ∧
    |((rnd (mean (cs.filterMap id)) : ℤ) : ℚ) - mean (cs.filterMap id)| ≤ 1/2 ∧
    List.Forall₂ (fun c c' =>
        (∀ x : ℚ, c = some x → c' = some x) ∧
        (c = none → c' = some ((rnd (mean (cs.filterMap id)) : ℤ) : ℚ)))
      cs (cs.map fun c => some (c.getD ((rnd (mean (cs.filterMap id)) : ℤ) : ℚ))) := by
  obtain ⟨c', hc'mem, himp⟩ := hmv_col hout hcol
  have himp2 : Col.impute (⟨name, .nums b cs⟩ : Col ℚ) =
      some ⟨name, .nums b (cs.map fun c =>
        some (c.getD ((rnd (mean (cs.filterMap id)) : ℤ) : ℚ)))⟩ := by
    simp [Col.impute, fillnaNum, hnm]
  rw [himp2] at himp
  obtain rfl : c' = _ := (Option.some.inj himp).symm
  refine ⟨hc'mem, rnd_nearest _, ?_⟩
  rw [List.forall₂_map_right_iff, List.forall₂_same]
  intro c hc
  constructor
  · intro x hx; rw [hx]; rfl
  · intro hx; rw [hx]; rfl

/-- A concrete table for the C9 witness; the mean of the non-missing
values is `3/2`, so the fill value is the even-rounded `2`. -/
def wdf9 : DF ℚ := ⟨[0, 1, 2], [⟨"a", .nums false [some 1, none, some 2]⟩]⟩

theorem wdf9_eval : handle_missing_values wdf9 =
    some ⟨[0, 1, 2], [⟨"a", .nums false [some 1, some 2, some 2]⟩]⟩ := by
  norm_num [wdf9, handle_missing_values, mapOption, Col.impute, fillnaNum,
    mean, rnd, Int.fract, List.filterMap]
  simp

/-- Witness for C9 at a concrete table. -/
theorem claim9_witness :
    ((⟨"a", .nums false [some 1, none, some 2]⟩ : Col ℚ) ∈ wdf9.cols) ∧
    ([some (1:ℚ), none, some 2].filterMap id ≠ []) ∧
    ((⟨"a", .nums false ([some (1:ℚ), none, some 2].map fun c =>
        some (c.getD ((rnd (mean ([some (1:ℚ), none, some 2].filterMap id)) : ℤ) : ℚ)))⟩ : Col ℚ) ∈
      (⟨[0, 1, 2], [⟨"a", .nums false [some 1, some 2, some 2]⟩]⟩ : DF ℚ).cols ∧
      |((rnd (mean ([some (1:ℚ), none, some 2].filterMap id)) : ℤ) : ℚ) -
        mean ([some (1:ℚ), none, some 2].filterMap id)| ≤ 1/2 ∧
      List.Forall₂ (fun c c' =>
        (∀ x : ℚ, c = some x → c' = some x) ∧
        (c = none → c' = some ((rnd (mean ([some (1:ℚ), none, some 2].filterMap id)) : ℤ) : ℚ)))
        [some (1:ℚ), none, some 2]
        ([some (1:ℚ), none, some 2].map fun c =>
          some (c.getD ((rnd (mean ([some (1:ℚ), none, some 2].filterMap id)) : ℤ) : ℚ)))) :=
  ⟨by simp [wdf9], by simp [List.filterMap],
   claim9_numeric_fill wdf9 _ "a" false _ (by simp [wdf9])
     (by simp [List.filterMap]) wdf9_eval⟩

/-! ### Claim C6 -/

/-- The concrete table refuting the tie-breaking rule of claim C6: the
values `"b"` and `"a"` both occur once; first-occurrence tie-breaking
would fill with `"b"`, the code fills with the alphabetically smaller
`"a"` (pandas sorts the modes). -/
def xdf6 : DF ℚ := ⟨[0, 1, 2], [⟨"s", .strs [some "b", some "a", none]⟩]⟩

/-- Claim C6 counterexample: the imputer fills the missing cell of
`["b", "a", NA]` with `"a"` (smallest mode in sort order), not with the
earliest-occurring tied value `"b"` that the claim requires. -/
theorem claim6_counterexample :
    handle_missing_values xdf6 =
      some ⟨[0, 1, 2], [⟨"s", .strs [some "b", some "a", some "a"]⟩]⟩ ∧
    handle_missing_values xdf6 ≠
      some ⟨[0, 1, 2], [⟨"s", .strs [some "b", some "a", some "b"]⟩]⟩ := by
  have h : handle_missing_values xdf6 =
      some ⟨[0, 1, 2], [⟨"s", .strs [some "b", some "a", some "a"]⟩]⟩ := by
    norm_num +decide [xdf6, handle_missing_values, mapOption, Col.impute, fillnaStr,
      mode0, List.filterMap, List.dedup, List.insert, List.count,
      List.insertionSort, List.orderedInsert, String.le_iff_toList_le]
  refine ⟨h, fun hcontra => ?_⟩
  rw [h] at hcontra
  simp at hcontra

/-- Claim C6 (corrected): the imputer fills each missing cell of a
categorical column with a most frequent non-missing value, but breaks
ties by SORT order (the smallest tied value), not by first occurrence. -/
theorem claim6_mode_fill (df out : DF ℚ) (name : String)
    (cs : List (Option String))
    (hcol : (⟨name, .strs cs⟩ : Col ℚ) ∈ df.cols)
    (hnm : cs.filterMap id ≠ [])
    (hout : handle_missing_values df = some out) :
    ∃ v, v ∈ cs.filterMap id ∧
      (∀ w ∈ cs.filterMap id, (cs.filterMap id).count w ≤ (cs.filterMap id).count v) ∧
      (∀ w ∈ cs.filterMap id, (cs.filterMap id).count w = (cs.filterMap id).count v → v ≤ w) ∧
      (⟨name, .strs (cs.map fun c => some (c.getD v))⟩ : Col ℚ) ∈ out.cols := by
  obtain ⟨c', hc'mem, himp⟩ := hmv_col hout hcol
  obtain ⟨v, hv0, hvmem, hvmax, hvmin⟩ := mode0_spec hnm
  have himp2 : Col.impute (⟨name, .strs cs⟩ : Col ℚ) =
      some ⟨name, .strs (cs.map fun c => some (c.getD v))⟩ := by
    simp [Col.impute, fillnaStr, hv0]
  rw [himp2] at himp
  obtain rfl : c' = _ := (Option.some.inj himp).symm
  exact ⟨v, hvmem, hvmax, hvmin, hc'mem⟩

/-- A concrete table for the C6 witness. -/
def wdf6 : DF ℚ := ⟨[0, 1], [⟨"s", .strs [some "b", none]⟩]⟩

theorem wdf6_eval : handle_missing_values wdf6 =
    some ⟨[0, 1], [⟨"s", .strs [some "b", some "b"]⟩]⟩ := by
  norm_num [wdf6, handle_missing_values, mapOption, Col.impute, fillnaStr,
    mode0, List.filterMap, List.dedup, List.insert, List.count,
    List.insertionSort, List.orderedInsert]

/-- Witness for the corrected C6 at a concrete table. -/
theorem claim6_witness :
    ((⟨"s", .strs [some "b", none]⟩ : Col ℚ) ∈ wdf6.cols) ∧
    ([some "b", none].filterMap id ≠ []) ∧
    ∃ v, v ∈ [some "b", none].filterMap id ∧
      (∀ w ∈ [some "b", none].filterMap id,
        ([some "b", none].filterMap id).count w ≤ ([some "b", none].filterMap id).count v) ∧
      (∀ w ∈ [some "b", none].filterMap id,
        ([some "b", none].filterMap id).count w = ([some "b", none].filterMap id).count v →
          v ≤ w) ∧
      (⟨"s", .strs ([some "b", none].map fun c => some (c.getD v))⟩ : Col ℚ) ∈
        (⟨[0, 1], [⟨"s", .strs [some "b", some "b"]⟩]⟩ : DF ℚ).cols :=
  ⟨by simp [wdf6], by simp [List.filterMap],
   claim6_mode_fill wdf6 _ "s" _ (by simp [wdf6]) (by simp [List.filterMap]) wdf6_eval⟩

/-! ### Claim C4 -/

/-- The concrete table refuting C4 for numeric columns: the single column
is all-missing and numeric. -/
def xdf4 : DF ℝ := ⟨[0], [⟨"x", .nums false [none]⟩]⟩

/-- Claim C4 counterexample: on an all-missing NUMERIC column the imputer
does NOT fail — `fillna(NaN)` is a silent no-op — it is the Outlier
Suppressor that later raises (`round(NaN)`). -/
theorem claim4_counterexample :
    handle_missing_values xdf4 = some xdf4 ∧ handle_outliers xdf4 = none := by
  constructor
  · norm_num [xdf4, handle_missing_values, mapOption, Col.impute, fillnaNum,
      List.filterMap]
  · norm_num [xdf4, handle_outliers, mapOption, Col.outlier, outlierCol, List.filterMap]

/-- Claim C4 (corrected): with any all-missing column the pipeline still
aborts with no result table, but only an all-missing CATEGORICAL column
makes the imputer itself fail; an all-missing numeric column passes
through the imputer unfilled and the run aborts later, in the Outlier
Suppressor. -/
theorem claim4_all_missing_aborts (df : DF ℝ)
    (h : ∃ c ∈ df.cols, c.data.allMissing) :
    preprocess_data Real.sqrt df = none ∧
    ((∃ c ∈ df.cols, c.data.isStrs = true ∧ c.data.allMissing) →
      handle_missing_values df = none) := by
  have hpart2 : (∃ c ∈ df.cols, c.data.isStrs = true ∧ c.data.allMissing) →
      handle_missing_values df = none := by
    rintro ⟨c, hc, hstrs, hall⟩
    obtain ⟨name, data⟩ := c
    cases data with
    | nums b cs => simp [ColData.isStrs] at hstrs
    | strs cs =>
      have himp : Col.impute (⟨name, .strs cs⟩ : Col ℝ) = none :=
        impute_strs_all_missing hall
      rw [handle_missing_values, mapOption_eq_none _ hc himp]
      rfl
  refine ⟨?_, hpart2⟩
  rcases hmvcase : handle_missing_values df with _ | df1
  · rw [preprocess_data, hmvcase]; rfl
  · obtain ⟨c, hc, hall⟩ := h
    obtain ⟨name, data⟩ := c
    cases data with
    | strs cs =>
      have himp : Col.impute (⟨name, .strs cs⟩ : Col ℝ) = none :=
        impute_strs_all_missing hall
      have hnone : handle_missing_values df = none := by
        rw [handle_missing_values, mapOption_eq_none _ hc himp]; rfl
      rw [hnone] at hmvcase; cases hmvcase
    | nums b cs =>
      have hall' : ∀ x ∈ cs, x = none := hall
      have hnm : cs.filterMap id = [] :=
        List.filterMap_eq_nil_iff.mpr fun a ha => hall' a ha
      have himp : Col.impute (⟨name, .nums b cs⟩ : Col ℝ) = some ⟨name, .nums b cs⟩ := by
        simp [Col.impute, fillnaNum, hnm]
      obtain ⟨_, hfa⟩ := hmv_inv hmvcase
      obtain ⟨c1, hc1, himp1⟩ := forall₂_mem_left hfa hc
      rw [himp] at himp1
      obtain rfl : c1 = ⟨name, .nums b cs⟩ := (Option.some.inj himp1).symm
      have hc2 : (⟨name, .nums b (maskFilter (keepFirsts []
          ((List.range df1.index.length).map fun i =>
            df1.cols.map fun c => c.data.rowCell i)) cs)⟩ : Col ℝ) ∈
          (remove_duplicates df1).cols := by
        rw [remove_duplicates]
        exact List.mem_map.mpr ⟨⟨name, .nums b cs⟩, hc1, rfl⟩
      have hallm : ∀ x ∈ maskFilter (keepFirsts []
          ((List.range df1.index.length).map fun i =>
            df1.cols.map fun c => c.data.rowCell i)) cs, x = none :=
        fun x hx => hall' x (maskFilter_mem hx)
      have hout : handle_outliers (remove_duplicates df1) = none :=
        handle_outliers_none hc2 hallm
      rw [preprocess_data, hmvcase, Option.some_bind, hout]
      rfl

/-- A concrete table for the C4 witness: one all-missing categorical
column. -/
def wdf4 : DF ℝ := ⟨[0], [⟨"s", .strs [none]⟩]⟩

/-- Witness for the corrected C4 at a concrete table. -/
theorem claim4_witness :
    (∃ c ∈ wdf4.cols, c.data.allMissing) ∧
    (preprocess_data Real.sqrt wdf4 = none ∧
      ((∃ c ∈ wdf4.cols, c.data.isStrs = true ∧ c.data.allMissing) →
        handle_missing_values wdf4 = none)) :=
  ⟨⟨⟨"s", .strs [none]⟩, by simp [wdf4], by intro x hx; simpa using hx⟩,
   claim4_all_missing_aborts wdf4
     ⟨⟨"s", .strs [none]⟩, by simp [wdf4], by intro x hx; simpa using hx⟩⟩

/-! ### Claim C7 -/

/-- Claim C7 (confirmed): the Outlier Suppressor replaces exactly the
values strictly outside `[Q1 - 1.5*IQR, Q3 + 1.5*IQR]` (quartiles by
linear-interpolation quantile estimation over the original values) with
the rounded median of the original values — an integer within `1/2` of
the median, hence a nearest integer — while every in-bound value keeps
its exact original value. -/
theorem claim7_outlier_replace (df out : DF ℚ) (name : String) (b : Bool)
    (xs : List ℚ)
    (hcol : (⟨name, .nums b (xs.map some)⟩ : Col ℚ) ∈ df.cols)
    (hxs : xs ≠ [])
    (hout : handle_outliers df = some out) :
    (⟨name, .nums b (xs.map fun x =>
        some (if x < quantileLinear xs (1/4) -
                3/2 * (quantileLinear xs (3/4) - quantileLinear xs (1/4)) ∨
              quantileLinear xs (3/4) +
                3/2 * (quantileLinear xs (3/4) - quantileLinear xs (1/4)) < x
            then ((rnd (quantileLinear xs (1/2)) : ℤ) : ℚ) else x))⟩ : Col ℚ) ∈ out.cols ∧
    |((rnd (quantileLinear xs (1/2)) : ℤ) : ℚ) - quantileLinear xs (1/2)| ≤ 1/2 := by
  obtain ⟨_, hfa⟩ := ho_inv hout
  obtain ⟨c', hc'mem, hoc⟩ := forall₂_mem_left hfa hcol
  have hnm : (xs.map some).filterMap id = xs := filterMap_id_map_some xs
  have hoc2 : Col.outlier (⟨name, .nums b (xs.map some)⟩ : Col ℚ) =
      some ⟨name, .nums b (xs.map fun x =>
        some (if x < quantileLinear xs (1/4) -
                3/2 * (quantileLinear xs (3/4) - quantileLinear xs (1/4)) ∨
              quantileLinear xs (3/4) +
                3/2 * (quantileLinear xs (3/4) - quantileLinear xs (1/4)) < x
            then ((rnd (quantileLinear xs (1/2)) : ℤ) : ℚ) else x))⟩ := by
    rw [Col.outlier]
    simp only [outlierCol, hnm, if_neg hxs, List.map_map]
    rfl
  rw [hoc2] at hoc
  obtain rfl : c' = _ := (Option.some.inj hoc).symm
  exact ⟨hc'mem, rnd_nearest _⟩

/-- The scenario table of spec section 8: one extreme value `1000` in
`[1,2,2,3,1000]`. -/
def wdf7 : DF ℚ := ⟨[0, 1, 2, 3, 4],
  [⟨"v", .nums false [some 1, some 2, some 2, some 3, some 1000]⟩]⟩

theorem w7_q14 : quantileLinear ([1, 2, 2, 3, 1000] : List ℚ) (1/4) = 2 := by
  norm_num [quantileLinear, List.insertionSort, List.orderedInsert]

theorem w7_q34 : quantileLinear ([1, 2, 2, 3, 1000] : List ℚ) (3/4) = 3 := by
  norm_num [quantileLinear, List.insertionSort, List.orderedInsert]
  rfl

theorem w7_q12 : quantileLinear ([1, 2, 2, 3, 1000] : List ℚ) (1/2) = 2 := by
  norm_num [quantileLinear, List.insertionSort, List.orderedInsert]
  rfl

theorem wdf7_eval : handle_outliers wdf7 =
    some ⟨[0, 1, 2, 3, 4],
      [⟨"v", .nums false [some 1, some 2, some 2, some 3, some 2]⟩]⟩ := by
  norm_num [wdf7, handle_outliers, mapOption, Col.outlier, outlierCol,
    w7_q14, w7_q34, w7_q12, rnd, Int.fract, List.filterMap]
  simp

/-- Witness for C7 on the spec scenario column `[1,2,2,3,1000]`: the
`1000` is replaced by the rounded original median `2` and all in-bound
values keep their original value. -/
theorem claim7_witness :
    ((⟨"v", .nums false ([(1:ℚ), 2, 2, 3, 1000].map some)⟩ : Col ℚ) ∈ wdf7.cols) ∧
    (([(1:ℚ), 2, 2, 3, 1000] : List ℚ) ≠ []) ∧
    ((⟨"v", .nums false ([(1:ℚ), 2, 2, 3, 1000].map fun x =>
        some (if x < quantileLinear [(1:ℚ), 2, 2, 3, 1000] (1/4) -
                3/2 * (quantileLinear [(1:ℚ), 2, 2, 3, 1000] (3/4) -
                  quantileLinear [(1:ℚ), 2, 2, 3, 1000] (1/4)) ∨
              quantileLinear [(1:ℚ), 2, 2, 3, 1000] (3/4) +
                3/2 * (quantileLinear [(1:ℚ), 2, 2, 3, 1000] (3/4) -
                  quantileLinear [(1:ℚ), 2, 2, 3, 1000] (1/4)) < x
            then ((rnd (quantileLinear [(1:ℚ), 2, 2, 3, 1000] (1/2)) : ℤ) : ℚ)
            else x))⟩ : Col ℚ) ∈
        (⟨[0, 1, 2, 3, 4],
          [⟨"v", .nums false [some 1, some 2, some 2, some 3, some 2]⟩]⟩ : DF ℚ).cols ∧
      |((rnd (quantileLinear [(1:ℚ), 2, 2, 3, 1000] (1/2)) : ℤ) : ℚ) -
        quantileLinear [(1:ℚ), 2, 2, 3, 1000] (1/2)| ≤ 1/2) :=
  ⟨by simp [wdf7], by simp,
   claim7_outlier_replace wdf7 _ "v" false [1, 2, 2, 3, 1000]
     (by simp [wdf7]) (by simp) wdf7_eval⟩

/-! ### Claim C8 -/

/-- Claim C8 (confirmed): for every numeric column with no missing cell
and nonzero population variance, the Standardizer maps it to a column
with mean exactly `0` and population standard deviation (divisor `n`)
exactly `1` — in particular within any floating-point tolerance. -/
theorem claim8_standardizer (df out : DF ℝ) (name : String) (b : Bool)
    (xs : List ℝ)
    (hcol : (⟨name, .nums b (xs.map some)⟩ : Col ℝ) ∈ df.cols)
    (hxs : xs ≠ [])
    (hvar : popVar xs ≠ 0)
    (hout : scale_numerical_features Real.sqrt df = some out) :
    ∃ ys : List ℝ,
      (⟨name, .nums b (ys.map some)⟩ : Col ℝ) ∈ out.cols ∧
      mean ys = 0 ∧ popVar ys = 1 ∧ Real.sqrt (popVar ys) = 1 := by
  have hn : (xs.length : ℝ) ≠ 0 := by simpa using hxs
  have hv0 : 0 < popVar xs := lt_of_le_of_ne (popVar_nonneg xs) (Ne.symm hvar)
  have hs0 : Real.sqrt (popVar xs) ≠ 0 := ne_of_gt (Real.sqrt_pos.mpr hv0)
  -- the standardized values
  have hmean0 : mean (xs.map fun x => (x - mean xs) / Real.sqrt (popVar xs)) = 0 := by
    rw [mean]
    have hrw : (xs.map fun x => (x - mean xs) / Real.sqrt (popVar xs)) =
        xs.map fun x => (x - mean xs) * (Real.sqrt (popVar xs))⁻¹ :=
      List.map_congr_left fun x _ => div_eq_mul_inv _ _
    rw [hrw, sum_map_sub_mul]
    have hsum : xs.sum = (xs.length : ℝ) * mean xs := by
      rw [mean]; field_simp
    rw [hsum]
    simp
  have hvar1 : popVar (xs.map fun x => (x - mean xs) / Real.sqrt (popVar xs)) = 1 := by
    rw [popVar, hmean0]
    have hlen : (((xs.map fun x => (x - mean xs) / Real.sqrt (popVar xs)).length : ℝ)) =
        (xs.length : ℝ) := by simp
    have hrw2 : ((xs.map fun x => (x - mean xs) / Real.sqrt (popVar xs)).map
          fun y => (y - 0) ^ 2) =
        xs.map fun x => ((x - mean xs) * (Real.sqrt (popVar xs))⁻¹) ^ 2 := by
      rw [List.map_map]
      exact List.map_congr_left fun x _ => by simp [div_eq_mul_inv]
    rw [hrw2, sum_map_sq_sub_mul, hlen]
    have hSq : ((xs.map fun x => (x - mean xs) ^ 2).sum) =
        popVar xs * (xs.length : ℝ) := by
      rw [popVar]; field_simp
    rw [hSq, ← Real.sqrt_inv, Real.sq_sqrt (by positivity)]
    field_simp
  -- invert the stage
  rw [scale_numerical_features] at hout
  by_cases h1 : df.cols.all (fun c => !c.data.isNums) = true
  · rw [if_pos h1] at hout; cases hout
  rw [if_neg h1] at hout
  by_cases h2 : df.index.length = 0
  · rw [if_pos h2] at hout; cases hout
  rw [if_neg h2] at hout
  have hout2 := Option.some.inj hout
  subst hout2
  refine ⟨xs.map fun x => (x - mean xs) / Real.sqrt (popVar xs), ?_, hmean0, hvar1,
    by rw [hvar1, Real.sqrt_one]⟩
  refine List.mem_map.mpr ⟨⟨name, .nums b (xs.map some)⟩, hcol, ?_⟩
  show (⟨name, .nums b (scaleCol Real.sqrt (xs.map some))⟩ : Col ℝ) = _
  have hcells : scaleCol Real.sqrt (xs.map some) =
      (xs.map fun x => (x - mean xs) / Real.sqrt (popVar xs)).map some := by
    simp only [scaleCol, filterMap_id_map_some]
    rw [if_neg hs0]
    simp only [List.map_map]
    rfl
  rw [hcells]

/-- A concrete table for the C8 witness: the column `[0, 2]` has variance
exactly `1`, so it standardizes to `[-1, 1]`. -/
def wdf8 : DF ℝ := ⟨[0, 1], [⟨"x", .nums false [some 0, some 2]⟩]⟩

theorem wdf8_eval : scale_numerical_features Real.sqrt wdf8 =
    some ⟨[0, 1], [⟨"x", .nums false [some (-1), some 1]⟩]⟩ := by
  norm_num [wdf8, scale_numerical_features, scaleCol, mean, popVar,
    ColData.isNums, List.filterMap]

/-- Witness for C8 at a concrete table. -/
theorem claim8_witness :
    ((⟨"x", .nums false ([(0:ℝ), 2].map some)⟩ : Col ℝ) ∈ wdf8.cols) ∧
    (([(0:ℝ), 2] : List ℝ) ≠ []) ∧
    popVar ([(0:ℝ), 2] : List ℝ) ≠ 0 ∧
    ∃ ys : List ℝ,
      (⟨"x", .nums false (ys.map some)⟩ : Col ℝ) ∈
        (⟨[0, 1], [⟨"x", .nums false [some (-1), some 1]⟩]⟩ : DF ℝ).cols ∧
      mean ys = 0 ∧ popVar ys = 1 ∧ Real.sqrt (popVar ys) = 1 :=
  ⟨by simp [wdf8], by simp, by norm_num [popVar, mean],
   claim8_standardizer wdf8 _ "x" false [0, 2] (by simp [wdf8]) (by simp)
     (by norm_num [popVar, mean]) wdf8_eval⟩

/-! ### Claim C2 -/

/-- The concrete table refuting C2: a numeric column with population
standard deviation zero. -/
def xdf2 : DF ℝ := ⟨[0, 1], [⟨"x", .nums false [some 5, some 5]⟩]⟩

/-- Claim C2 counterexample: on a zero-variance numeric column the
Standardizer does NOT fail — `StandardScaler` replaces the zero scale
with `1` and centers the column to all zeros, and the stage returns a
table. -/
theorem claim2_counterexample :
    scale_numerical_features Real.sqrt xdf2 =
      some ⟨[0, 1], [⟨"x", .nums false [some 0, some 0]⟩]⟩ := by
  norm_num [xdf2, scale_numerical_features, scaleCol, mean, popVar,
    ColData.isNums, List.filterMap, Real.sqrt_zero]

/-- Claim C2 (corrected): the Standardizer never fails because of a
zero-variance column; whenever the table has at least one numeric column
and at least one row it succeeds, and each zero-variance numeric column
is mapped to all zeros (`(x - mean)/1 = 0`). -/
theorem claim2_zero_sigma_ok (df : DF ℝ)
    (hnum : ∃ c ∈ df.cols, c.data.isNums = true)
    (hrows : df.index.length ≠ 0) :
    ∃ out, scale_numerical_features Real.sqrt df = some out ∧
      ∀ (name : String) (b : Bool) (cs : List (Option ℝ)),
        (⟨name, .nums b cs⟩ : Col ℝ) ∈ df.cols →
        popVar (cs.filterMap id) = 0 →
        (⟨name, .nums b (cs.map (Option.map fun _ => (0:ℝ)))⟩ : Col ℝ) ∈ out.cols := by
  obtain ⟨c0, hc0, hc0n⟩ := hnum
  have hguard : ¬ (df.cols.all (fun c => !c.data.isNums) = true) := by
    rw [List.all_eq_true]
    intro hall
    have := hall c0 hc0
    rw [hc0n] at this
    cases this
  rw [scale_numerical_features, if_neg hguard, if_neg hrows]
  refine ⟨_, rfl, ?_⟩
  intro name b cs hc hv
  refine List.mem_map.mpr ⟨⟨name, .nums b cs⟩, hc, ?_⟩
  have hcells : scaleCol Real.sqrt cs = cs.map (Option.map fun _ => (0:ℝ)) := by
    rw [scaleCol]
    refine List.map_congr_left fun c hcmem => ?_
    cases c with
    | none => rfl
    | some x =>
      have hxmem : x ∈ cs.filterMap id :=
        List.mem_filterMap.mpr ⟨some x, hcmem, rfl⟩
      have hxmean : x = mean (cs.filterMap id) := popVar_eq_zero hv x hxmem
      simp [hxmean]
  simp [hcells]

/-- Witness for the corrected C2 at a concrete table (the same
zero-variance column as the counterexample). -/
theorem claim2_witness :
    (∃ c ∈ xdf2.cols, c.data.isNums = true) ∧
    xdf2.index.length ≠ 0 ∧
    ∃ out, scale_numerical_features Real.sqrt xdf2 = some out ∧
      ∀ (name : String) (b : Bool) (cs : List (Option ℝ)),
        (⟨name, .nums b cs⟩ : Col ℝ) ∈ xdf2.cols →
        popVar (cs.filterMap id) = 0 →
        (⟨name, .nums b (cs.map (Option.map fun _ => (0:ℝ)))⟩ : Col ℝ) ∈ out.cols :=
  ⟨⟨⟨"x", .nums false [some 5, some 5]⟩, by simp [xdf2], rfl⟩,
   by simp [xdf2],
   claim2_zero_sigma_ok xdf2
     ⟨⟨"x", .nums false [some 5, some 5]⟩, by simp [xdf2], rfl⟩
     (by simp [xdf2])⟩

/-! ### Claim C3 -/

/-- The concrete table refuting the enumeration order of claim C3: the
categorical column holds `["b", "a"]`, whose first-occurrence order is
`b, a` (so the claim would drop `"b"` and synthesize `x_a`). -/
def xdf3 : DF ℚ := ⟨[0, 1], [⟨"x", .strs [some "b", some "a"]⟩]⟩

/-- Claim C3 counterexample: the encoder enumerates categories in SORTED
order (`a, b`), drops the sorted-first `"a"`, and synthesizes `x_b` — not
`x_a` as first-occurrence enumeration would give. -/
theorem claim3_counterexample :
    (encode_categorical_variables xdf3).map (fun d => d.cols.map Col.name) =
      some ["x_b"] ∧ (["x_b"] : List String) ≠ ["x_a"] := by
  constructor
  · norm_num +decide [xdf3, encode_categorical_variables, survivorCol,
      indicatorBlock, ColData.isStrs,
      sortedDistinct, mergeIdx, reindex, List.filterMap, List.dedup, List.insert,
      List.insertionSort, List.orderedInsert, String.le_iff_toList_le,
      List.range, List.range.loop, List.findIdx?, List.flatten,
      List.getD_cons_zero, List.getD_cons_succ, List.getD_nil]
  · decide

theorem map_eq_self_of_eq {σ : Type} {f : σ → σ} :
    ∀ {l : List σ}, (∀ a ∈ l, f a = a) → l.map f = l := by
  intro l
  induction l with
  | nil => intro _; rfl
  | cons a t ih =>
    intro h
    rw [List.map_cons, h a (List.mem_cons_self _ _),
      ih fun x hx => h x (List.mem_cons_of_mem _ hx)]

/-- What the encoder does on a table with a clean `RangeIndex` (the
reindexing through the outer join collapses to the identity). -/
theorem encode_clean_index {α : Type} [LinearOrderedField α] [FloorRing α]
    (df : DF α) (n : ℕ)
    (hidx : df.index = List.range n) (hn : n ≠ 0)
    (hcat : ¬ (df.cols.all fun c => !c.data.isStrs) = true)
    (hlen : ∀ c ∈ df.cols, c.data.length = n) :
    encode_categorical_variables df =
      some ⟨List.range n,
        (df.cols.filter fun c => !c.data.isStrs) ++
        ((df.cols.filter fun c => c.data.isStrs).map fun c =>
          match c.data with
          | .strs cs => ((sortedDistinct cs).tail).map fun v =>
              (⟨c.name ++ "_" ++ v,
                .nums false (cs.map fun cell =>
                  some (if cell = some v then (1:α) else 0))⟩ : Col α)
          | .nums _ _ => ([] : List (Col α))).flatten⟩ := by
  have hlen_idx : df.index.length = n := by rw [hidx]; simp
  rw [encode_categorical_variables, if_neg hcat, if_neg (by rw [hlen_idx]; exact hn)]
  simp only [hidx, List.length_range, mergeIdx_range]
  refine congrArg some ?_
  refine congrArg₂ DF.mk rfl ?_
  refine congrArg₂ (fun a b => a ++ b) ?_ (congrArg List.flatten ?_)
  · refine map_eq_self_of_eq fun c hc => ?_
    obtain ⟨name, data⟩ := c
    cases data with
    | nums b cs =>
      show (⟨name, .nums b (reindex (List.range n) cs (List.range n))⟩ : Col α) = _
      rw [reindex_range cs n (hlen _ (List.mem_of_mem_filter hc))]
    | strs cs => rfl
  · refine List.map_congr_left fun c hc => ?_
    obtain ⟨name, data⟩ := c
    cases data with
    | nums b cs => rfl
    | strs cs =>
      have hcs : cs.length = n := hlen _ (List.mem_of_mem_filter hc)
      show ((sortedDistinct cs).tail).map _ = ((sortedDistinct cs).tail).map _
      refine List.map_congr_left fun v _ => ?_
      rw [reindex_range _ n (by simpa using hcs)]

/-- Claim C3 (corrected): on a table with a clean `RangeIndex`, the
Categorical Encoder enumerates each categorical column's distinct values
in ascending SORTED order, drops the first value in that (sorted) order,
synthesizes one indicator column `name_value` per remaining category
(cells `1` where the original cell equals the category, else `0`),
removes the original categorical columns, and appends the indicator
blocks after all surviving columns, in (original column, sorted category)
order. -/
theorem claim3_sorted_encoding {α : Type} [LinearOrderedField α] [FloorRing α]
    (df : DF α) (n : ℕ)
    (hidx : df.index = List.range n) (hn : n ≠ 0)
    (hcat : ¬ (df.cols.all fun c => !c.data.isStrs) = true)
    (hlen : ∀ c ∈ df.cols, c.data.length = n) :
    encode_categorical_variables df =
      some ⟨List.range n,
        (df.cols.filter fun c => !c.data.isStrs) ++
        ((df.cols.filter fun c => c.data.isStrs).map fun c =>
          match c.data with
          | .strs cs => ((sortedDistinct cs).tail).map fun v =>
              (⟨c.name ++ "_" ++ v,
                .nums false (cs.map fun cell =>
                  some (if cell = some v then (1:α) else 0))⟩ : Col α)
          | .nums _ _ => ([] : List (Col α))).flatten⟩ :=
  encode_clean_index df n hidx hn hcat hlen

/-- A concrete table for the C3 witness: one numeric and one categorical
column on a clean index. -/
def wdf3 : DF ℚ :=
  ⟨[0, 1], [⟨"n", .nums false [some 7, some 8]⟩, ⟨"c", .strs [some "b", some "a"]⟩]⟩

/-- Witness for the corrected C3 at a concrete table. -/
theorem claim3_witness :
    (wdf3.index = List.range 2) ∧ (2 : ℕ) ≠ 0 ∧
    (¬ (wdf3.cols.all fun c => !c.data.isStrs) = true) ∧
    (∀ c ∈ wdf3.cols, c.data.length = 2) ∧
    encode_categorical_variables wdf3 =
      some ⟨List.range 2,
        (wdf3.cols.filter fun c => !c.data.isStrs) ++
        ((wdf3.cols.filter fun c => c.data.isStrs).map fun c =>
          match c.data with
          | .strs cs => ((sortedDistinct cs).tail).map fun v =>
              (⟨c.name ++ "_" ++ v,
                .nums false (cs.map fun cell =>
                  some (if cell = some v then (1:ℚ) else 0))⟩ : Col ℚ)
          | .nums _ _ => ([] : List (Col ℚ))).flatten⟩ :=
  ⟨by simp [wdf3, List.range, List.range.loop], by simp,
   by simp [wdf3, ColData.isStrs],
   by simp [wdf3, ColData.length],
   claim3_sorted_encoding wdf3 2 (by simp [wdf3, List.range, List.range.loop])
     (by simp) (by simp [wdf3, ColData.isStrs]) (by simp [wdf3, ColData.length])⟩

/-! ### Claim C10 -/

/-- Claim C10 (corrected): every indicator column synthesized by the
Categorical Encoder holds only the values `0` and `1` (or a missing cell
introduced by the concat alignment), so the exact integrality check of the
Integer-Type Restorer re-tags it as nullable-integer; and the restorer is
guaranteed to act (not be a no-op) whenever at least one indicator column
was synthesized, i.e. some categorical column has at least two distinct
values.  (A categorical column with a single distinct value is encoded
into zero indicator columns, so the restorer can still be a no-op — see
the counterexample.) -/
theorem claim10_indicator_int64 (df5 out5 : DF ℝ)
    (henc : encode_categorical_variables df5 = some out5) :
    (∀ c ∈ out5.cols.drop ((df5.cols.filter fun c => !c.data.isStrs).length),
       c.data.isInt64 = false ∧ (Col.restoreInt c).data.isInt64 = true) ∧
    ((∃ c ∈ df5.cols, ∃ cs, c.data = .strs cs ∧ 2 ≤ (sortedDistinct cs).length) →
       out5.cols.drop ((df5.cols.filter fun c => !c.data.isStrs).length) ≠ []) := by
  rw [encode_categorical_variables] at henc
  by_cases hall : df5.cols.all (fun c => !c.data.isStrs) = true
  · rw [if_pos hall] at henc
    obtain rfl : df5 = out5 := Option.some.inj henc
    constructor
    · have hfil : (df5.cols.filter fun c => !c.data.isStrs) = df5.cols :=
        List.filter_eq_self.mpr fun c hc => (List.all_eq_true.mp hall) c hc
      rw [hfil, List.drop_length]
      intro c hc
      cases hc
    · rintro ⟨c, hc, cs, hdata, _⟩
      have hbad := (List.all_eq_true.mp hall) c hc
      rw [hdata] at hbad
      cases hbad
  · rw [if_neg hall] at henc
    by_cases hrows : df5.index.length = 0
    · rw [if_pos hrows] at henc; cases henc
    rw [if_neg hrows] at henc
    have hcols : out5.cols =
        ((df5.cols.filter fun c => !c.data.isStrs).map
          (survivorCol df5.index (mergeIdx df5.index (List.range df5.index.length)))) ++
        ((df5.cols.filter fun c => c.data.isStrs).map
          (indicatorBlock (List.range df5.index.length)
            (mergeIdx df5.index (List.range df5.index.length)))).flatten := by
      rw [← Option.some.inj henc]
    constructor
    · intro c hc
      rw [hcols, List.drop_left' (List.length_map _ _)] at hc
      obtain ⟨l, hl, hcl⟩ := List.mem_flatten.mp hc
      obtain ⟨c0, hc0, rfl⟩ := List.mem_map.mp hl
      obtain ⟨name0, data0⟩ := c0
      cases data0 with
      | nums b cs => simp only [indicatorBlock] at hcl; cases hcl
      | strs cs =>
        simp only [indicatorBlock] at hcl
        obtain ⟨v, _, rfl⟩ := List.mem_map.mp hcl
        refine ⟨rfl, ?_⟩
        have hcond : ∀ x ∈ (reindex (List.range df5.index.length)
            (cs.map fun cell => some (if cell = some v then (1:ℝ) else 0))
            (mergeIdx df5.index (List.range df5.index.length))).filterMap id,
            x = ((⌊x⌋ : ℤ) : ℝ) := by
          intro x hx
          obtain ⟨y, hy, hyx⟩ := List.mem_filterMap.mp hx
          rcases reindex_cell_mem hy with h | h
          · rw [h] at hyx; cases hyx
          · obtain ⟨cell, _, hcell⟩ := List.mem_map.mp h
            rw [← hcell] at hyx
            have hxval : x = if cell = some v then (1:ℝ) else 0 :=
              (Option.some.inj hyx).symm
            by_cases hcv : cell = some v
            · rw [hxval, if_pos hcv]; norm_num
            · rw [hxval, if_neg hcv]; norm_num
        simp only [Col.restoreInt]
        rw [if_pos hcond]
        rfl
    · rintro ⟨c0, hc0, cs, hdata, h2⟩
      intro hnil
      rw [hcols, List.drop_left' (List.length_map _ _)] at hnil
      have hc0f : c0 ∈ df5.cols.filter fun c => c.data.isStrs :=
        List.mem_filter.mpr ⟨hc0, by rw [hdata]; rfl⟩
      have hmem : indicatorBlock (List.range df5.index.length)
          (mergeIdx df5.index (List.range df5.index.length)) c0 ∈
          (df5.cols.filter fun c => c.data.isStrs).map
            (indicatorBlock (List.range df5.index.length)
              (mergeIdx df5.index (List.range df5.index.length))) :=
        List.mem_map.mpr ⟨c0, hc0f, rfl⟩
      have hblock := List.flatten_eq_nil_iff.mp hnil _ hmem
      rw [show indicatorBlock (List.range df5.index.length)
          (mergeIdx df5.index (List.range df5.index.length)) c0 =
          ((sortedDistinct cs).tail).map fun v =>
            (⟨c0.name ++ "_" ++ v, .nums false (reindex (List.range df5.index.length)
              (cs.map fun cell => some (if cell = some v then (1:ℝ) else 0))
              (mergeIdx df5.index (List.range df5.index.length)))⟩ : Col ℝ) from by
        rw [indicatorBlock, hdata]] at hblock
      rw [List.map_eq_nil_iff] at hblock
      have htail : (sortedDistinct cs).length - 1 = 0 := by
        rw [← List.length_tail, hblock]
        rfl
      omega

/-- A concrete table for the C10 witness: numeric column `[0, 1]` and a
two-category categorical column. -/
def wdf10 : DF ℝ :=
  ⟨[0, 1], [⟨"n", .nums false [some 0, some 1]⟩, ⟨"c", .strs [some "a", some "b"]⟩]⟩

theorem wdf10_enc : encode_categorical_variables wdf10 =
    some ⟨[0, 1], [⟨"n", .nums false [some 0, some 1]⟩,
                   ⟨"c_b", .nums false [some 0, some 1]⟩]⟩ := by
  norm_num +decide [wdf10, encode_categorical_variables, survivorCol,
    indicatorBlock, ColData.isStrs,
    sortedDistinct, mergeIdx, reindex, List.filterMap, List.dedup, List.insert,
    List.insertionSort, List.orderedInsert, String.le_iff_toList_le,
    List.range, List.range.loop, List.findIdx?, List.flatten,
    List.getD_cons_zero, List.getD_cons_succ, List.getD_nil]
  exact rfl

/-- Witness for the corrected C10 at a concrete table. -/
theorem claim10_witness :
    (∀ c ∈ (⟨[0, 1], [⟨"n", .nums false [some (0:ℝ), some 1]⟩,
        ⟨"c_b", .nums false [some 0, some 1]⟩]⟩ : DF ℝ).cols.drop
          ((wdf10.cols.filter fun c => !c.data.isStrs).length),
       c.data.isInt64 = false ∧ (Col.restoreInt c).data.isInt64 = true) ∧
    ((∃ c ∈ wdf10.cols, ∃ cs, c.data = .strs cs ∧ 2 ≤ (sortedDistinct cs).length) →
       (⟨[0, 1], [⟨"n", .nums false [some (0:ℝ), some 1]⟩,
          ⟨"c_b", .nums false [some 0, some 1]⟩]⟩ : DF ℝ).cols.drop
          ((wdf10.cols.filter fun c => !c.data.isStrs).length) ≠ []) :=
  claim10_indicator_int64 wdf10 _ wdf10_enc

/-- The concrete table refuting the final clause of claim C10: a numeric
column `[1..7]` (variance `4`, so it standardizes to half-integer values)
and a single-category categorical column. -/
def xdf10 : DF ℝ := ⟨List.range 7,
  [⟨"n", .nums false [some 1, some 2, some 3, some 4, some 5, some 6, some 7]⟩,
   ⟨"c", .strs [some "a", some "a", some "a", some "a", some "a", some "a", some "a"]⟩]⟩

theorem x10_impute : handle_missing_values xdf10 = some xdf10 := by
  norm_num +decide [xdf10, handle_missing_values, mapOption, Col.impute,
    fillnaNum, fillnaStr, mode0, List.filterMap, List.dedup, List.insert,
    List.count, List.insertionSort, List.orderedInsert]

theorem x10_dedup : remove_duplicates xdf10 = xdf10 := by
  norm_num [xdf10, remove_duplicates, keepFirsts, maskFilter, ColData.mask,
    ColData.rowCell, List.range, List.range.loop,
    List.getD_cons_zero, List.getD_cons_succ, List.getD_nil]

theorem x10_q14 : quantileLinear
    ([1, 2, 3, 4, 5, 6, 7] : List ℝ) (1/4) = 5/2 := by
  norm_num [quantileLinear, List.insertionSort, List.orderedInsert]

theorem x10_q34 : quantileLinear
    ([1, 2, 3, 4, 5, 6, 7] : List ℝ) (3/4) = 11/2 := by
  norm_num [quantileLinear, List.insertionSort, List.orderedInsert]
  rw [show ([1, 2, 3, 4, 5, 6, 7] : List ℝ)[Int.toNat 4] = 5 from rfl,
    show ([2, 3, 4, 5, 6, 7] : List ℝ)[Int.toNat 4] = 6 from rfl]
  norm_num

theorem x10_q12 : quantileLinear
    ([1, 2, 3, 4, 5, 6, 7] : List ℝ) (1/2) = 4 := by
  norm_num [quantileLinear, List.insertionSort, List.orderedInsert]
  rfl

theorem x10_outliers : handle_outliers xdf10 = some xdf10 := by
  norm_num [xdf10, handle_outliers, mapOption, Col.outlier, outlierCol,
    x10_q14, x10_q34, x10_q12, rnd, Int.fract, List.filterMap]
  simp

theorem x10_sqrt4 : Real.sqrt 4 = 2 := by
  rw [show (4:ℝ) = 2 ^ 2 by norm_num, Real.sqrt_sq (by norm_num)]

theorem x10_mean : mean ([1, 2, 3, 4, 5, 6, 7] : List ℝ) = 4 := by
  norm_num [mean]

theorem x10_var : popVar ([1, 2, 3, 4, 5, 6, 7] : List ℝ) = 4 := by
  norm_num [popVar, x10_mean]

theorem x10_scale : scale_numerical_features Real.sqrt xdf10 =
    some ⟨List.range 7,
      [⟨"n", .nums false [some (-(3/2) : ℝ), some (-1), some (-(1/2)), some 0,
         some (1/2), some 1, some (3/2)]⟩,
       ⟨"c", .strs [some "a", some "a", some "a", some "a", some "a",
         some "a", some "a"]⟩]⟩ := by
  norm_num [xdf10, scale_numerical_features, scaleCol, ColData.isNums,
    List.filterMap, x10_mean, x10_var, x10_sqrt4, List.length_range]

theorem x10_encode : encode_categorical_variables
    (⟨List.range 7,
      [⟨"n", .nums false [some (-(3/2) : ℝ), some (-1), some (-(1/2)), some 0,
         some (1/2), some 1, some (3/2)]⟩,
       ⟨"c", .strs [some "a", some "a", some "a", some "a", some "a",
         some "a", some "a"]⟩]⟩ : DF ℝ) =
    some ⟨List.range 7,
      [⟨"n", .nums false [some (-(3/2) : ℝ), some (-1), some (-(1/2)), some 0,
         some (1/2), some 1, some (3/2)]⟩]⟩ := by
  rw [encode_clean_index _ 7 rfl (by norm_num)
    (by norm_num +decide [ColData.isStrs])
    (by norm_num [ColData.length, List.forall_mem_cons])]
  norm_num +decide [ColData.isStrs, sortedDistinct, List.filterMap,
    List.dedup, List.insert, List.insertionSort, List.orderedInsert]

/-- Claim C10 counterexample: on this table the pipeline succeeds, the
(categorical) column `c` is consumed by the encoder, yet the Integer-Type
Restorer is a no-op: no column of the final output is re-tagged `Int64`
(the single-category column produced no indicator columns, and the
standardized numeric column has half-integer values).  Since the restorer
can only re-tag columns, an all-`false` `Int64` flag on the output means
it changed nothing. -/
theorem claim10_counterexample :
    (∃ c ∈ xdf10.cols, c.data.isStrs = true) ∧
    preprocess_data Real.sqrt xdf10 =
      some ⟨List.range 7,
        [⟨"n", .nums false [some (-(3/2) : ℝ), some (-1), some (-(1/2)), some 0,
           some (1/2), some 1, some (3/2)]⟩]⟩ ∧
    (∀ c ∈ [(⟨"n", .nums false [some (-(3/2) : ℝ), some (-1), some (-(1/2)),
        some 0, some (1/2), some 1, some (3/2)]⟩ : Col ℝ)],
      c.data.isInt64 = false) := by
  refine ⟨⟨⟨"c", .strs [some "a", some "a", some "a", some "a", some "a",
    some "a", some "a"]⟩, by simp [xdf10], rfl⟩, ?_, ?_⟩
  · rw [preprocess_data, x10_impute, Option.some_bind, x10_dedup, x10_outliers,
      Option.some_bind, x10_scale, Option.some_bind, x10_encode, Option.some_bind]
    have hnotint : ¬ (∀ x ∈ ([some (-(3/2) : ℝ), some (-1), some (-(1/2)),
        some 0, some (1/2), some 1, some (3/2)] : List (Option ℝ)).filterMap id,
        x = ((⌊x⌋ : ℤ) : ℝ)) := by
      intro hall
      have := hall (-(3/2)) (by norm_num [List.filterMap])
      norm_num at this
    rw [List.map_cons, List.map_nil,
      show Col.restoreInt (⟨"n", .nums false [some (-(3/2) : ℝ), some (-1),
        some (-(1/2)), some 0, some (1/2), some 1, some (3/2)]⟩ : Col ℝ) =
        ⟨"n", .nums false [some (-(3/2) : ℝ), some (-1), some (-(1/2)), some 0,
          some (1/2), some 1, some (3/2)]⟩ from by
        simp only [Col.restoreInt]
        rw [if_neg hnotint]]
  · intro c hc
    rw [List.mem_singleton] at hc
    subst hc
    rfl

/-! ### Claim C1 -/

/-- The failing input for claim C1: a duplicate row in the middle and a
categorical column.  After deduplication the index has a gap (`[0, 2]`),
and the encoder's `pd.concat` outer-joins it with the encoded block's
fresh `RangeIndex` `[0, 1]`, yielding three rows again. -/
def xdf1 : DF ℝ :=
  ⟨[0, 1, 2], [⟨"n", .nums false [some 1, some 1, some 3]⟩,
               ⟨"c", .strs [some "a", some "a", some "b"]⟩]⟩

theorem x1_impute : handle_missing_values xdf1 = some xdf1 := by
  norm_num +decide [xdf1, handle_missing_values, mapOption, Col.impute,
    fillnaNum, fillnaStr, mode0, List.filterMap, List.dedup, List.insert,
    List.count, List.insertionSort, List.orderedInsert]

theorem x1_dedup : remove_duplicates xdf1 =
    ⟨[0, 2], [⟨"n", .nums false [some 1, some 3]⟩,
              ⟨"c", .strs [some "a", some "b"]⟩]⟩ := by
  norm_num [xdf1, remove_duplicates, keepFirsts, maskFilter, ColData.mask,
    ColData.rowCell, List.range, List.range.loop,
    List.getD_cons_zero, List.getD_cons_succ, List.getD_nil]

theorem x1_outliers : handle_outliers
    (⟨[0, 2], [⟨"n", .nums false [some 1, some 3]⟩,
       ⟨"c", .strs [some "a", some "b"]⟩]⟩ : DF ℝ) =
    some ⟨[0, 2], [⟨"n", .nums false [some 1, some 3]⟩,
       ⟨"c", .strs [some "a", some "b"]⟩]⟩ := by
  norm_num [handle_outliers, mapOption, Col.outlier, outlierCol, quantileLinear,
    rnd, Int.fract, List.filterMap, List.insertionSort, List.orderedInsert,
    List.getD_cons_zero, List.getD_cons_succ, List.getD_nil]
  simp

theorem x1_scale : scale_numerical_features Real.sqrt
    (⟨[0, 2], [⟨"n", .nums false [some 1, some 3]⟩,
       ⟨"c", .strs [some "a", some "b"]⟩]⟩ : DF ℝ) =
    some ⟨[0, 2], [⟨"n", .nums false [some (-1), some 1]⟩,
       ⟨"c", .strs [some "a", some "b"]⟩]⟩ := by
  norm_num [scale_numerical_features, scaleCol, mean, popVar,
    ColData.isNums, List.filterMap]

theorem x1_encode : encode_categorical_variables
    (⟨[0, 2], [⟨"n", .nums false [some (-1 : ℝ), some 1]⟩,
       ⟨"c", .strs [some "a", some "b"]⟩]⟩ : DF ℝ) =
    some ⟨[0, 1, 2], [⟨"n", .nums false [some (-1 : ℝ), none, some 1]⟩,
       ⟨"c_b", .nums false [some 0, some 1, none]⟩]⟩ := by
  norm_num +decide [encode_categorical_variables, survivorCol, indicatorBlock,
    ColData.isStrs, sortedDistinct, mergeIdx, reindex, List.filterMap,
    List.dedup, List.insert, List.insertionSort, List.orderedInsert,
    String.le_iff_toList_le, List.range, List.range.loop, List.findIdx?,
    List.flatten, List.getD_cons_zero, List.getD_cons_succ, List.getD_nil]
  exact ⟨rfl, rfl⟩

theorem x1_pipeline : preprocess_data Real.sqrt xdf1 =
    some ⟨[0, 1, 2], [⟨"n", .nums true [some (-1 : ℝ), none, some 1]⟩,
       ⟨"c_b", .nums true [some 0, some 1, none]⟩]⟩ := by
  rw [preprocess_data, x1_impute, Option.some_bind, x1_dedup, x1_outliers,
    Option.some_bind, x1_scale, Option.some_bind, x1_encode, Option.some_bind]
  norm_num [Col.restoreInt, List.filterMap]

/-- Claim C1 (code bug): on the failing input the Deduplicator shrinks
the table to two rows, but the final pipeline output has THREE rows: the
Categorical Encoder's `pd.concat(axis=1)` outer-joins the gap-containing
index `[0, 2]` left by `drop_duplicates(inplace=True)` with the encoded
block's fresh `RangeIndex` `[0, 1]`, resurrecting a row (padded with
missing cells).  This contradicts the claim that every stage other than
the Deduplicator preserves the row count and that the final output never
has more rows than any intermediate table. -/
theorem claim1_rowcount_bug :
    xdf1.index.length = 3 ∧
    (handle_missing_values xdf1).map
      (fun d => (remove_duplicates d).index.length) = some 2 ∧
    (preprocess_data Real.sqrt xdf1).map (fun d => d.index.length) = some 3 := by
  refine ⟨rfl, ?_, ?_⟩
  · rw [x1_impute]
    show some ((remove_duplicates xdf1).index.length) = some 2
    rw [x1_dedup]
    rfl
  · rw [x1_pipeline]
    rfl

end DataPrep
